import Mathlib

/-!
Verification development for a small Python utility library:
a thread-safe connection pool (`connection.py`) and an ad-hoc
enumeration helper (`enums.py`).

The pool is shallowly embedded as a pure state machine.  A `PoolState`
carries the two tracking dictionaries (`checked_in`, `checked_out`)
as association lists with distinct keys, and the LIFO buffer of free
connections (`connections`) as a list whose head is the top of the
stack.  Python timestamps (`datetime.datetime.utcnow()`) are modelled
as natural numbers supplied explicitly by the caller of each
transition.  A Python dictionary operation that raises `KeyError`
(such as `del d[k]` for a missing key) is modelled by returning
`none`; since `del` is the first statement of both internal
transitions, the raising path leaves the maps unchanged, which the
`none` result reflects.  Connections are identified by `Nat` keys
(identity of the opaque handles); the caller-supplied extra data is a
type parameter `δ`.
-/

/-- Association-list lookup, modelling Python `d[k]` / `getattr`:
the value of the first entry whose key is `k`, if any. -/
def lookupA {κ ν : Type} [DecidableEq κ] (l : List (κ × ν)) (k : κ) : Option ν :=
  (l.find? (fun p => decide (p.1 = k))).map (fun p => p.2)

/-- The keys of an association list, in order. -/
def keysA {κ ν : Type} (l : List (κ × ν)) : List κ :=
  l.map (fun p => p.1)

/-- Association-list deletion, modelling Python `del d[k]` once the key
is known to be present: drops every entry with key `k` (with distinct
keys, exactly one). -/
def eraseA {κ ν : Type} [DecidableEq κ] (l : List (κ × ν)) (k : κ) : List (κ × ν) :=
  l.filter (fun p => decide (¬ p.1 = k))

/-- Association-list insertion, modelling Python `d[k] = v`: when `k`
is already bound the entry keeps its position and the value is
replaced, otherwise the new binding is appended (dict insertion
order). -/
def insertA {κ ν : Type} [DecidableEq κ] (l : List (κ × ν)) (k : κ) (v : ν) : List (κ × ν) :=
  if (lookupA l k).isSome then
    l.map (fun p => if p.1 = k then (k, v) else p)
  else l ++ [(k, v)]

theorem keysA_append {κ ν : Type} (l l' : List (κ × ν)) :
    keysA (l ++ l') = keysA l ++ keysA l' :=
  List.map_append _ l l'

theorem keysA_cons {κ ν : Type} (p : κ × ν) (l : List (κ × ν)) :
    keysA (p :: l) = p.1 :: keysA l :=
  rfl

section AssocLemmas

variable {κ ν : Type} [DecidableEq κ]

theorem lookupA_nil {k : κ} : lookupA ([] : List (κ × ν)) k = none := rfl

theorem lookupA_cons_self {p : κ × ν} {l : List (κ × ν)} {k : κ} (h : p.1 = k) :
    lookupA (p :: l) k = some p.2 := by
  simp [lookupA, List.find?_cons, h]

theorem lookupA_cons_of_ne {p : κ × ν} {l : List (κ × ν)} {k : κ} (h : ¬ p.1 = k) :
    lookupA (p :: l) k = lookupA l k := by
  simp [lookupA, List.find?_cons, h]

theorem lookupA_isSome_iff {l : List (κ × ν)} {k : κ} :
    (lookupA l k).isSome = true ↔ k ∈ keysA l := by
  induction l with
  | nil => simp [lookupA, keysA]
  | cons p tl ih =>
    by_cases h : p.1 = k
    · simp [lookupA_cons_self h, keysA, h]
    · rw [lookupA_cons_of_ne h, keysA_cons, List.mem_cons]
      rw [ih]
      constructor
      · exact Or.inr
      · rintro (hc | hc)
        · exact absurd hc.symm h
        · exact hc

theorem lookupA_eq_none_iff {l : List (κ × ν)} {k : κ} :
    lookupA l k = none ↔ k ∉ keysA l := by
  rw [← lookupA_isSome_iff]
  cases h : lookupA l k <;> simp [h]

theorem mem_keysA_eraseA {l : List (κ × ν)} {k c : κ} :
    c ∈ keysA (eraseA l k) ↔ c ∈ keysA l ∧ c ≠ k := by
  simp only [keysA, eraseA, List.mem_map, List.mem_filter, decide_eq_true_eq]
  constructor
  · rintro ⟨p, ⟨hp, hpk⟩, rfl⟩
    exact ⟨⟨p, hp, rfl⟩, hpk⟩
  · rintro ⟨⟨p, hp, rfl⟩, hpk⟩
    exact ⟨p, ⟨hp, hpk⟩, rfl⟩

theorem eraseA_sublist (l : List (κ × ν)) (k : κ) : (eraseA l k).Sublist l :=
  List.filter_sublist l

theorem keysA_eraseA_sublist (l : List (κ × ν)) (k : κ) :
    (keysA (eraseA l k)).Sublist (keysA l) := by
  simpa [keysA] using (eraseA_sublist l k).map (fun p => p.1)

theorem nodup_keysA_eraseA {l : List (κ × ν)} (k : κ) (h : (keysA l).Nodup) :
    (keysA (eraseA l k)).Nodup :=
  h.sublist (keysA_eraseA_sublist l k)

theorem eraseA_eq_self_of_not_mem {l : List (κ × ν)} {k : κ} (h : k ∉ keysA l) :
    eraseA l k = l := by
  rw [eraseA, List.filter_eq_self]
  intro p hp
  simp only [decide_eq_true_eq]
  intro hc
  exact h (by simp only [keysA, List.mem_map]; exact ⟨p, hp, hc⟩)

theorem eraseA_cons_self {p : κ × ν} {l : List (κ × ν)} {k : κ} (h : p.1 = k) :
    eraseA (p :: l) k = eraseA l k := by
  simp [eraseA, List.filter_cons, h]

theorem eraseA_cons_of_ne {p : κ × ν} {l : List (κ × ν)} {k : κ} (h : ¬ p.1 = k) :
    eraseA (p :: l) k = p :: eraseA l k := by
  simp [eraseA, List.filter_cons, h]

theorem length_keysA_eraseA {l : List (κ × ν)} {k : κ}
    (hnd : (keysA l).Nodup) (hmem : k ∈ keysA l) :
    (keysA (eraseA l k)).length + 1 = (keysA l).length := by
  induction l with
  | nil => simp [keysA] at hmem
  | cons p tl ih =>
    rw [keysA_cons, List.nodup_cons] at hnd
    by_cases h : p.1 = k
    · rw [eraseA_cons_self h, eraseA_eq_self_of_not_mem (show k ∉ keysA tl from h ▸ hnd.1)]
      simp [keysA]
    · have hmem' : k ∈ keysA tl := by
        rw [keysA_cons, List.mem_cons] at hmem
        rcases hmem with hm | hm
        · exact absurd hm.symm h
        · exact hm
      rw [eraseA_cons_of_ne h, keysA_cons, keysA_cons, List.length_cons, List.length_cons,
        ih hnd.2 hmem']

theorem insertA_of_not_mem {l : List (κ × ν)} {k : κ} (v : ν) (h : k ∉ keysA l) :
    insertA l k v = l ++ [(k, v)] := by
  rw [insertA, if_neg]
  rw [lookupA_eq_none_iff.2 h]
  simp

theorem lookupA_append_single_self {l : List (κ × ν)} {k : κ} (v : ν)
    (h : k ∉ keysA l) :
    lookupA (l ++ [(k, v)]) k = some v := by
  induction l with
  | nil => simp [lookupA]
  | cons p tl ih =>
    rw [keysA_cons, List.mem_cons] at h
    push_neg at h
    rw [List.cons_append, lookupA_cons_of_ne (fun hc => h.1 hc.symm)]
    exact ih h.2

theorem lookupA_mapReplace {l : List (κ × ν)} {k : κ} (v : ν) (h : k ∈ keysA l) :
    lookupA (l.map (fun p => if p.1 = k then (k, v) else p)) k = some v := by
  induction l with
  | nil => simp [keysA] at h
  | cons p tl ih =>
    by_cases hp : p.1 = k
    · rw [List.map_cons, if_pos hp]
      exact lookupA_cons_self rfl
    · rw [List.map_cons, if_neg hp, lookupA_cons_of_ne hp]
      have h' : k ∈ keysA tl := by
        rw [keysA_cons, List.mem_cons] at h
        rcases h with h | h
        · exact absurd h.symm hp
        · exact h
      exact ih h'

theorem lookupA_insertA_self (l : List (κ × ν)) (k : κ) (v : ν) :
    lookupA (insertA l k v) k = some v := by
  by_cases h : k ∈ keysA l
  · rw [insertA, if_pos (lookupA_isSome_iff.2 h)]
    exact lookupA_mapReplace v h
  · rw [insertA_of_not_mem v h]
    exact lookupA_append_single_self v h

end AssocLemmas

theorem nodup_append_single {κ : Type} {l : List κ} {a : κ} (hnd : l.Nodup) (ha : a ∉ l) :
    (l ++ [a]).Nodup := by
  rw [List.nodup_append]
  refine ⟨hnd, List.nodup_singleton a, fun x hx hx2 => ?_⟩
  simp only [List.mem_singleton] at hx2
  exact ha (hx2 ▸ hx)

/-!
## The pool data model (`src/connection.py`, class `ConnectionPool`)
-/

/-- The mutable state of a `ConnectionPool`:
`checked_in : {con: time_since_last_checkout}`,
`checked_out : {con: (checked_out_time, checked_out_by_user)}`, and
`connections`, the `Queue.LifoQueue` of free connections with the head
of the list as the top of the stack.  The `threading.RLock` has no
state of its own in the sequential embedding; the lock acquisitions
performed by the code are recorded separately as event traces. -/
structure PoolState (δ : Type) where
  checked_in : List (Nat × Nat)
  checked_out : List (Nat × (Nat × δ))
  connections : List Nat
deriving Repr, DecidableEq

/-- Keys of the available (checked-in) map. -/
def keysCI {δ : Type} (s : PoolState δ) : List Nat := keysA s.checked_in

/-- Keys of the checked-out map. -/
def keysCO {δ : Type} (s : PoolState δ) : List Nat := keysA s.checked_out

/-- `ConnectionPool.__init__`: `get_connection` is modelled by the list
`cons` of the connections it returns, in creation order.  Each `con` is
`put` on the LIFO queue (so the last created is on top, hence
`cons.reverse` with head = top) and `checked_in[con]` is set to the
current time `t0`. -/
def initPool {δ : Type} (cons : List Nat) (t0 : Nat) : PoolState δ :=
  { checked_in := cons.map (fun c => (c, t0)),
    checked_out := [],
    connections := cons.reverse }

/-- `ConnectionPool.Acquired(con, data)`:
`del self.checked_in[con]` (raises `KeyError`, i.e. `none`, when `con`
is not a key — and then neither map has been touched yet), then
`self.checked_out[con] = (utcnow(), data)`. -/
def Acquired {δ : Type} (s : PoolState δ) (con : Nat) (data : δ) (now : Nat) :
    Option (PoolState δ) :=
  if (lookupA s.checked_in con).isSome then
    some { s with
      checked_in := eraseA s.checked_in con,
      checked_out := insertA s.checked_out con (now, data) }
  else none

/-- `ConnectionPool.Released(con, unused_data)`:
`del self.checked_out[con]` (raises `KeyError`, i.e. `none`, when `con`
is not a key — and then neither map has been touched yet), then
`self.checked_in[con] = utcnow()` and `self.connections.put(con)`. -/
def Released {δ : Type} (s : PoolState δ) (con : Nat) (now : Nat) :
    Option (PoolState δ) :=
  if (lookupA s.checked_out con).isSome then
    some { s with
      checked_out := eraseA s.checked_out con,
      checked_in := insertA s.checked_in con now,
      connections := con :: s.connections }
  else none

/-- `ConnectionPool.Stats()`: one `utcnow()` is read, then both maps
are walked, producing `(checked_in, checked_out)` with durations
computed against that single `now`. -/
def Stats {δ : Type} (s : PoolState δ) (now : Nat) :
    List (Nat × Nat) × List (Nat × (Nat × δ)) :=
  (s.checked_in.map (fun p => (p.1, now - p.2)),
   s.checked_out.map (fun p => (p.1, (now - p.2.1, p.2.2))))

/-- `self.connections.get(True, timeout)` inside `Get`: pop the top of
the LIFO queue.  In the sequential embedding the timeout branch
(`Queue.Empty`, hence `con = None`) is taken exactly when the buffer is
empty, since no other thread can put a connection while we wait. -/
def getCon {δ : Type} (s : PoolState δ) : Option Nat × PoolState δ :=
  match s.connections with
  | [] => (none, s)
  | c :: rest => (some c, { s with connections := rest })

/-- The acquisition half of `ConnectionPool.Get`: pop a connection (or
time out with `None`), and on success run `Acquired` under the lock.
`none` models a `KeyError` escaping `Get`. -/
def acquirePhase {δ : Type} (s : PoolState δ) (data : δ) (now : Nat) :
    Option (Option Nat × PoolState δ) :=
  match getCon s with
  | (none, s0) => some (none, s0)
  | (some con, s0) =>
    (Acquired s0 con data now).map (fun s1 => (some con, s1))

/-- A whole `with pool.Get(timeout, data) as con: ...` execution.
`nowA`/`nowR` are the clock readings at `Acquired`/`Released` time.
`bodyFails` records whether the caller's block exits normally
(`false`) or by raising/early exit (`true`); the `try/finally` in
`Get` runs `Released` on every such path, so the body's outcome is
merely passed through.  The overall `none` models a `KeyError`
escaping `Get` itself (never reached from a consistent pool state). -/
def withGet {δ : Type} (s : PoolState δ) (data : δ) (nowA nowR : Nat)
    (bodyFails : Bool) : Option (Option Nat × PoolState δ × Bool) :=
  match acquirePhase s data nowA with
  | none => none
  | some (none, s0) => some (none, s0, bodyFails)
  | some (some con, s1) =>
    (Released s1 con nowR).map (fun s2 => (some con, s2, bodyFails))

/-!
## Event traces

The sequential embedding cannot express lock acquisition directly, so
each method is additionally given the ordered list of observable
events its body performs (queue operations, clock reads, map reads and
writes, lock acquire/release, and the `yield` back to the caller),
read off the source line by line.
-/

/-- Observable events of the pool's methods. -/
inductive Ev
  | lockAcq
  | lockRel
  | readClock
  | readCI
  | readCO
  | writeCI
  | writeCO
  | qGet
  | qPut
  | yieldCon
deriving Repr, DecidableEq

/-- Events of `Stats`: `utcnow()`, then `checked_in.items()`, then
`checked_out.items()` — no lock operation appears in its body. -/
def StatsTrace : List Ev := [Ev.readClock, Ev.readCI, Ev.readCO]

/-- Events of `Acquired`: `del checked_in[con]`, `utcnow()`,
`checked_out[con] = ...`. -/
def AcquiredTrace : List Ev := [Ev.writeCI, Ev.readClock, Ev.writeCO]

/-- Events of `Released`: `del checked_out[con]`, `utcnow()`,
`checked_in[con] = ...`, `connections.put(con)`. -/
def ReleasedTrace : List Ev := [Ev.writeCO, Ev.readClock, Ev.writeCI, Ev.qPut]

/-- Events of a successful `Get` scope: queue pop, then `Acquired`
bracketed by `with self.lock`, the `yield`, then `Released` bracketed
by `with self.lock`. -/
def GetSuccessTrace : List Ev :=
  [Ev.qGet, Ev.lockAcq] ++ AcquiredTrace ++ [Ev.lockRel, Ev.yieldCon, Ev.lockAcq]
    ++ ReleasedTrace ++ [Ev.lockRel]

/-- Events of a timed-out `Get` scope: the queue pop attempt raises
`Queue.Empty`, `None` is yielded, and the `finally` block skips
`Released`. -/
def GetTimeoutTrace : List Ev := [Ev.qGet, Ev.yieldCon]

/-!
## Reachable pool states and the tracking invariant
-/

/-- The pool's documented invariant over a state `s` of a pool built
from the distinct connections `cons`: every connection is in exactly
one tracking map, the key lists are duplicate-free, the LIFO buffer
holds exactly the available connections without duplicates, and the
two map sizes add up to the pool size. -/
structure PoolInv {δ : Type} (cons : List Nat) (s : PoolState δ) : Prop where
  mem_iff : ∀ c, c ∈ cons ↔ (c ∈ keysCI s ∨ c ∈ keysCO s)
  not_both : ∀ c, ¬ (c ∈ keysCI s ∧ c ∈ keysCO s)
  nodup_ci : (keysCI s).Nodup
  nodup_co : (keysCO s).Nodup
  nodup_q : s.connections.Nodup
  q_iff : ∀ c, c ∈ s.connections ↔ c ∈ keysCI s
  count_eq : (keysCI s).length + (keysCO s).length = cons.length

/-- One observable mutation of the pool: either the acquisition half of
a `Get` that obtained a connection (queue pop followed by `Acquired`
under the lock), or the release half of some scope exit (`Released`
under the lock).  Timeout paths do not mutate the state. -/
inductive PoolStep {δ : Type} : PoolState δ → PoolState δ → Prop
  | acquire (s : PoolState δ) (con : Nat) (rest : List Nat) (data : δ) (now : Nat)
      (s' : PoolState δ) (hq : s.connections = con :: rest)
      (ha : Acquired { s with connections := rest } con data now = some s') :
      PoolStep s s'
  | release (s : PoolState δ) (con : Nat) (now : Nat) (s' : PoolState δ)
      (hr : Released s con now = some s') :
      PoolStep s s'

/-- States reachable from a freshly constructed pool by any
interleaving of acquisition and release halves. -/
inductive PoolReachable {δ : Type} (cons : List Nat) (t0 : Nat) : PoolState δ → Prop
  | init : PoolReachable cons t0 (initPool cons t0)
  | step (s s' : PoolState δ) (h : PoolReachable cons t0 s) (hs : PoolStep s s') :
      PoolReachable cons t0 s'

theorem keysCI_initPool {δ : Type} (cons : List Nat) (t0 : Nat) :
    keysCI (initPool cons t0 : PoolState δ) = cons := by
  have hcomp : ((fun p : Nat × Nat => p.1) ∘ fun c : Nat => (c, t0)) = (id : Nat → Nat) := by
    funext c; rfl
  show List.map (fun p => p.1) (List.map (fun c => (c, t0)) cons) = cons
  rw [List.map_map, hcomp, List.map_id]

theorem poolInv_init {δ : Type} (cons : List Nat) (t0 : Nat) (hnd : cons.Nodup) :
    PoolInv cons (initPool cons t0 : PoolState δ) := by
  have hci := keysCI_initPool (δ := δ) cons t0
  refine ⟨?_, ?_, ?_, ?_, ?_, ?_, ?_⟩
  · intro c; rw [hci]; simp [keysCO, keysA, initPool]
  · intro c; rw [hci]; simp [keysCO, keysA, initPool]
  · rw [hci]; exact hnd
  · simp [keysCO, keysA, initPool]
  · simpa [initPool] using List.nodup_reverse.2 hnd
  · intro c; rw [hci]; simp [initPool]
  · rw [hci]; simp [keysCO, keysA, initPool]

theorem poolInv_acquire {δ : Type} {cons : List Nat} {s s' : PoolState δ}
    {con : Nat} {rest : List Nat} {data : δ} {now : Nat}
    (inv : PoolInv cons s) (hq : s.connections = con :: rest)
    (ha : Acquired { s with connections := rest } con data now = some s') :
    PoolInv cons s' := by
  simp only [Acquired] at ha
  split at ha
  case isFalse => exact absurd ha (by simp)
  case isTrue hc =>
    rw [Option.some_inj] at ha
    subst ha
    have hmemCI : con ∈ keysCI s := lookupA_isSome_iff.1 hc
    have hnotCO : con ∉ keysCO s := fun hco => inv.not_both con ⟨hmemCI, hco⟩
    have hins : insertA s.checked_out con (now, data) = s.checked_out ++ [(con, (now, data))] :=
      insertA_of_not_mem _ hnotCO
    have hkCO : keysCO ({ s with
        checked_in := eraseA s.checked_in con,
        checked_out := insertA s.checked_out con (now, data),
        connections := rest } : PoolState δ) = keysCO s ++ [con] := by
      simp [keysCO, hins, keysA_append, keysA]
    have hkCI : ∀ c, c ∈ keysCI ({ s with
        checked_in := eraseA s.checked_in con,
        checked_out := insertA s.checked_out con (now, data),
        connections := rest } : PoolState δ) ↔ c ∈ keysCI s ∧ c ≠ con := by
      intro c; exact mem_keysA_eraseA
    have hqnd : con ∉ rest ∧ rest.Nodup := by
      have := inv.nodup_q
      rw [hq, List.nodup_cons] at this
      exact this
    refine ⟨?_, ?_, ?_, ?_, ?_, ?_, ?_⟩
    · intro c
      rw [hkCI c, hkCO, List.mem_append, List.mem_singleton]
      by_cases hcc : c = con
      · subst hcc
        simp only [ne_eq, not_true_eq_false, and_false, or_true, iff_true]
        exact (inv.mem_iff c).2 (Or.inl hmemCI)
      · simp only [hcc, or_false, ne_eq, hcc, not_false_eq_true, and_true]
        exact inv.mem_iff c
    · intro c hcc
      rw [hkCI c, hkCO, List.mem_append, List.mem_singleton] at hcc
      rcases hcc with ⟨⟨hci', hne⟩, hco' | hco'⟩
      · exact inv.not_both c ⟨hci', hco'⟩
      · exact hne hco'
    · exact nodup_keysA_eraseA con inv.nodup_ci
    · rw [hkCO]; exact nodup_append_single inv.nodup_co hnotCO
    · exact hqnd.2
    · intro c
      rw [hkCI c]
      constructor
      · intro hcr
        refine ⟨(inv.q_iff c).1 (by rw [hq]; exact List.mem_cons_of_mem _ hcr), ?_⟩
        intro hcc; subst hcc; exact hqnd.1 hcr
      · rintro ⟨hci', hne⟩
        have := (inv.q_iff c).2 hci'
        rw [hq, List.mem_cons] at this
        rcases this with hcc | hcr
        · exact absurd hcc hne
        · exact hcr
    · have h1 : (keysCI ({ s with
          checked_in := eraseA s.checked_in con,
          checked_out := insertA s.checked_out con (now, data),
          connections := rest } : PoolState δ)).length + 1 = (keysCI s).length :=
        length_keysA_eraseA inv.nodup_ci hmemCI
      rw [hkCO, List.length_append, List.length_singleton]
      have h2 := inv.count_eq
      omega

theorem poolInv_release {δ : Type} {cons : List Nat} {s s' : PoolState δ}
    {con : Nat} {now : Nat}
    (inv : PoolInv cons s) (hr : Released s con now = some s') :
    PoolInv cons s' := by
  simp only [Released] at hr
  split at hr
  case isFalse => exact absurd hr (by simp)
  case isTrue hc =>
    rw [Option.some_inj] at hr
    subst hr
    have hmemCO : con ∈ keysCO s := lookupA_isSome_iff.1 hc
    have hnotCI : con ∉ keysCI s := fun hci => inv.not_both con ⟨hci, hmemCO⟩
    have hnotQ : con ∉ s.connections := fun hcq => hnotCI ((inv.q_iff con).1 hcq)
    have hins : insertA s.checked_in con now = s.checked_in ++ [(con, now)] :=
      insertA_of_not_mem _ hnotCI
    have hkCI : keysCI ({ s with
        checked_out := eraseA s.checked_out con,
        checked_in := insertA s.checked_in con now,
        connections := con :: s.connections } : PoolState δ) = keysCI s ++ [con] := by
      simp [keysCI, hins, keysA_append, keysA]
    have hkCO : ∀ c, c ∈ keysCO ({ s with
        checked_out := eraseA s.checked_out con,
        checked_in := insertA s.checked_in con now,
        connections := con :: s.connections } : PoolState δ) ↔ c ∈ keysCO s ∧ c ≠ con := by
      intro c; exact mem_keysA_eraseA
    refine ⟨?_, ?_, ?_, ?_, ?_, ?_, ?_⟩
    · intro c
      rw [hkCO c, hkCI, List.mem_append, List.mem_singleton]
      by_cases hcc : c = con
      · subst hcc
        simp only [ne_eq, not_true_eq_false, and_false, or_false, or_true, iff_true]
        exact (inv.mem_iff c).2 (Or.inr hmemCO)
      · simp only [hcc, or_false, ne_eq, hcc, not_false_eq_true, and_true]
        exact inv.mem_iff c
    · intro c hcc
      rw [hkCO c, hkCI, List.mem_append, List.mem_singleton] at hcc
      rcases hcc with ⟨hci' | hci', ⟨hco', hne⟩⟩
      · exact inv.not_both c ⟨hci', hco'⟩
      · exact hne hci'
    · rw [hkCI]; exact nodup_append_single inv.nodup_ci hnotCI
    · exact nodup_keysA_eraseA con inv.nodup_co
    · exact List.nodup_cons.2 ⟨hnotQ, inv.nodup_q⟩
    · intro c
      rw [hkCI, List.mem_append, List.mem_singleton, List.mem_cons]
      constructor
      · rintro (hcc | hcq)
        · exact Or.inr hcc
        · exact Or.inl ((inv.q_iff c).1 hcq)
      · rintro (hci' | hcc)
        · exact Or.inr ((inv.q_iff c).2 hci')
        · exact Or.inl hcc
    · have h1 : (keysCO ({ s with
          checked_out := eraseA s.checked_out con,
          checked_in := insertA s.checked_in con now,
          connections := con :: s.connections } : PoolState δ)).length + 1
          = (keysCO s).length :=
        length_keysA_eraseA inv.nodup_co hmemCO
      rw [hkCI, List.length_append, List.length_singleton]
      have h2 := inv.count_eq
      omega

theorem poolInv_step {δ : Type} {cons : List Nat} {s s' : PoolState δ}
    (inv : PoolInv cons s) (hs : PoolStep s s') : PoolInv cons s' := by
  cases hs with
  | acquire con rest data now s2 hq ha => exact poolInv_acquire inv hq ha
  | release con now s2 hr => exact poolInv_release inv hr

theorem poolInv_of_reachable {δ : Type} {cons : List Nat} {t0 : Nat} {s : PoolState δ}
    (hnd : cons.Nodup) (hr : PoolReachable cons t0 s) : PoolInv cons s := by
  induction hr with
  | init => exact poolInv_init cons t0 hnd
  | step s s' h hs ih => exact poolInv_step ih hs

/-!
## Execution lemmas for `Get`
-/

theorem Acquired_success {δ : Type} (s : PoolState δ) (con : Nat) (data : δ) (now : Nat)
    (hci : con ∈ keysCI s) :
    Acquired s con data now = some { s with
      checked_in := eraseA s.checked_in con,
      checked_out := insertA s.checked_out con (now, data) } := by
  rw [Acquired, if_pos (lookupA_isSome_iff.2 hci)]

theorem Released_success {δ : Type} (s : PoolState δ) (con : Nat) (now : Nat)
    (hco : con ∈ keysCO s) :
    Released s con now = some { s with
      checked_out := eraseA s.checked_out con,
      checked_in := insertA s.checked_in con now,
      connections := con :: s.connections } := by
  rw [Released, if_pos (lookupA_isSome_iff.2 hco)]

theorem getCon_cons {δ : Type} (s : PoolState δ) {con : Nat} {rest : List Nat}
    (hq : s.connections = con :: rest) :
    getCon s = (some con, { s with connections := rest }) := by
  simp only [getCon, hq]

theorem getCon_nil {δ : Type} (s : PoolState δ) (hq : s.connections = []) :
    getCon s = (none, s) := by
  simp only [getCon, hq]

theorem acquirePhase_success {δ : Type} (s : PoolState δ) (data : δ) (nowA : Nat)
    {con : Nat} {rest : List Nat} (hq : s.connections = con :: rest)
    (hci : con ∈ keysCI s) :
    acquirePhase s data nowA =
      some (some con,
        { checked_in := eraseA s.checked_in con,
          checked_out := insertA s.checked_out con (nowA, data),
          connections := rest }) := by
  have ha : Acquired ({ s with connections := rest }) con data nowA =
      some
        { checked_in := eraseA s.checked_in con,
          checked_out := insertA s.checked_out con (nowA, data),
          connections := rest } :=
    Acquired_success _ con data nowA hci
  simp only [acquirePhase, getCon_cons s hq, ha, Option.map_some']

theorem acquirePhase_empty {δ : Type} (s : PoolState δ) (data : δ) (nowA : Nat)
    (hq : s.connections = []) :
    acquirePhase s data nowA = some (none, s) := by
  simp only [acquirePhase, getCon_nil s hq]

theorem withGet_success {δ : Type} (s : PoolState δ) (data : δ) (nowA nowR : Nat)
    (bodyFails : Bool) {con : Nat} {rest : List Nat}
    (hq : s.connections = con :: rest) (hci : con ∈ keysCI s) :
    withGet s data nowA nowR bodyFails =
      some (some con,
        { checked_in := insertA (eraseA s.checked_in con) con nowR,
          checked_out := eraseA (insertA s.checked_out con (nowA, data)) con,
          connections := con :: rest },
        bodyFails) := by
  have hco1 : con ∈ keysA (insertA s.checked_out con (nowA, data)) :=
    lookupA_isSome_iff.1 (by rw [lookupA_insertA_self]; rfl)
  have hR : Released
      ({ checked_in := eraseA s.checked_in con,
         checked_out := insertA s.checked_out con (nowA, data),
         connections := rest } : PoolState δ) con nowR =
      some
        { checked_in := insertA (eraseA s.checked_in con) con nowR,
          checked_out := eraseA (insertA s.checked_out con (nowA, data)) con,
          connections := con :: rest } :=
    Released_success _ con nowR hco1
  simp only [withGet, acquirePhase_success s data nowA hq hci, hR, Option.map_some']

theorem withGet_empty {δ : Type} (s : PoolState δ) (data : δ) (nowA nowR : Nat)
    (bodyFails : Bool) (hq : s.connections = []) :
    withGet s data nowA nowR bodyFails = some (none, s, bodyFails) := by
  simp only [withGet, acquirePhase_empty s data nowA hq]

theorem Released_conn {δ : Type} {s s' : PoolState δ} {con now : Nat}
    (h : Released s con now = some s') :
    s'.connections = con :: s.connections := by
  simp only [Released] at h
  split at h
  · rw [Option.some_inj] at h
    subst h
    rfl
  · exact absurd h (by simp)

theorem withGet_success_inv {δ : Type} {s s2 : PoolState δ} {data : δ}
    {nowA nowR : Nat} {bf b2 : Bool} {con : Nat}
    (h : withGet s data nowA nowR bf = some (some con, s2, b2)) :
    ∃ s1, acquirePhase s data nowA = some (some con, s1) ∧
      Released s1 con nowR = some s2 := by
  rw [withGet.eq_def] at h
  split at h
  · exact absurd h (by simp)
  · simp at h
  · rename_i con' s1 heq
    cases hR : Released s1 con' nowR with
    | none => rw [hR] at h; exact absurd h (by simp)
    | some s2' =>
      rw [hR] at h
      simp only [Option.map_some', Option.some_inj, Prod.mk.injEq] at h
      obtain ⟨hc, hs2, hb⟩ := h
      subst hc
      subst hs2
      exact ⟨s1, heq, hR⟩

/-!
## The enumeration helper (`src/enums.py`, class `Enum`)

`Enum(*vals)` takes bare strings (attribute = value) or
`(attribute, value)` tuples; attribute names are passed through
`str.translate(string.maketrans(' -', '__'))`; the constructor checks
`if getattr(self, safe_attr, None):` — a *truthiness* test, not a
presence test — and raises `KeyError` when it is truthy, otherwise
appends `safe_attr` to `instance_attrs` and `setattr`s the value
(silently overwriting any falsy earlier binding).  The model keeps
the ordered list of `(safe_attr, value)` bindings made so far, which
plays the role of both `self.__all__` and the object's attribute
dictionary (the latest binding wins, as `setattr` overwrites); the
class's own method names are outside the model.  Values are modelled
as strings, with Python falsiness of a string being emptiness. -/

/-- One argument to `Enum(*vals)`: a bare string or a tuple. -/
inductive EnumArg
  | str (attr : String)
  | pair (attr val : String)
deriving Repr, DecidableEq

/-- `attr, val = attr` vs `attr, val = attr` unpacking at the top of
the loop body: a bare string is its own value. -/
def argAttrVal : EnumArg → String × String
  | EnumArg.str a => (a, a)
  | EnumArg.pair a v => (a, v)

/-- `attr.translate(string.maketrans(' -', '__'))`: spaces and dashes
become underscores, character by character. -/
def translateAttr (a : String) : String :=
  String.mk (a.data.map (fun ch => if ch = ' ' ∨ ch = '-' then '_' else ch))

/-- `getattr(self, k, None)` over the bindings made so far: the latest
binding wins, since `setattr` overwrites. -/
def getattrD (l : List (String × String)) (k : String) : Option String :=
  lookupA l.reverse k

/-- Python truthiness of a `getattr(self, k, None)` result: `None` and
the empty string are falsy. -/
def truthyO : Option String → Bool
  | none => false
  | some v => v != ""

/-- The `for attr in vals` loop of `Enum.__init__`, with `acc` the
bindings made so far in order.  `Except.error ()` models the raised
`KeyError`. -/
def enumInitAux (acc : List (String × String)) :
    List EnumArg → Except Unit (List (String × String))
  | [] => Except.ok acc
  | a :: rest =>
    let p := argAttrVal a
    let safe := translateAttr p.1
    if truthyO (getattrD acc safe) then Except.error ()
    else enumInitAux (acc ++ [(safe, p.2)]) rest

/-- `Enum.__init__(*vals)`: on success, the ordered
`(safe_attr, value)` bindings (`self.__all__` paired with the
attribute values). -/
def enumInit (vals : List EnumArg) : Except Unit (List (String × String)) :=
  enumInitAux [] vals

theorem keysA_reverse {κ ν : Type} (l : List (κ × ν)) :
    keysA l.reverse = (keysA l).reverse :=
  List.map_reverse _ _

theorem lookupA_mem {κ ν : Type} [DecidableEq κ] {l : List (κ × ν)} {k : κ} {v : ν}
    (h : lookupA l k = some v) : (k, v) ∈ l := by
  induction l with
  | nil => simp [lookupA] at h
  | cons p tl ih =>
    by_cases hp : p.1 = k
    · rw [lookupA_cons_self hp, Option.some_inj] at h
      have : p = (k, v) := Prod.ext hp h
      exact this ▸ List.mem_cons_self p tl
    · rw [lookupA_cons_of_ne hp] at h
      exact List.mem_cons_of_mem _ (ih h)

theorem lookupA_of_nodup {κ ν : Type} [DecidableEq κ] {l : List (κ × ν)} {p : κ × ν}
    (hnd : (keysA l).Nodup) (hp : p ∈ l) : lookupA l p.1 = some p.2 := by
  induction l with
  | nil => simp at hp
  | cons q tl ih =>
    rw [keysA_cons, List.nodup_cons] at hnd
    rcases List.mem_cons.1 hp with rfl | hp'
    · exact lookupA_cons_self rfl
    · have hq : ¬ q.1 = p.1 := by
        intro hqq
        exact hnd.1 (hqq ▸ (List.mem_map.2 ⟨p, hp', rfl⟩))
      rw [lookupA_cons_of_ne hq]
      exact ih hnd.2 hp'

theorem getattrD_of_nodup {l : List (String × String)} {p : String × String}
    (hnd : (keysA l).Nodup) (hp : p ∈ l) : getattrD l p.1 = some p.2 := by
  rw [getattrD]
  exact lookupA_of_nodup
    (by rw [keysA_reverse]; exact List.nodup_reverse.2 hnd)
    (List.mem_reverse.2 hp)

theorem keysA_map_pair {α β γ : Type} (f : α → β) (g : α → γ) (l : List α) :
    keysA (l.map (fun a => (f a, g a))) = l.map f := by
  induction l with
  | nil => rfl
  | cons a tl ih =>
    rw [List.map_cons, keysA_cons, ih, List.map_cons]

theorem enumInitAux_ok_eq {vals : List EnumArg} {acc l : List (String × String)}
    (h : enumInitAux acc vals = Except.ok l) :
    l = acc ++ vals.map (fun a => (translateAttr (argAttrVal a).1, (argAttrVal a).2)) := by
  induction vals generalizing acc with
  | nil =>
    simp only [enumInitAux, Except.ok.injEq] at h
    simp [h.symm]
  | cons a rest ih =>
    simp only [enumInitAux] at h
    split at h
    · exact absurd h (by simp)
    · rw [ih h, List.map_cons, List.append_assoc, List.singleton_append]

theorem enumInitAux_ok_nodup {vals : List EnumArg} {acc l : List (String × String)}
    (hvals : ∀ a ∈ vals, (argAttrVal a).2 ≠ "")
    (hacc : ∀ p ∈ acc, p.2 ≠ "")
    (hnd : (keysA acc).Nodup)
    (h : enumInitAux acc vals = Except.ok l) :
    (keysA l).Nodup := by
  induction vals generalizing acc with
  | nil =>
    simp only [enumInitAux, Except.ok.injEq] at h
    subst h
    exact hnd
  | cons a rest ih =>
    simp only [enumInitAux] at h
    split at h
    · exact absurd h (by simp)
    · rename_i hfalse
      have hnotmem : translateAttr (argAttrVal a).1 ∉ keysA acc := by
        intro hm
        have hm' : translateAttr (argAttrVal a).1 ∈ keysA acc.reverse := by
          rw [keysA_reverse]
          exact List.mem_reverse.2 hm
        obtain ⟨v, hv⟩ := Option.isSome_iff_exists.1 (lookupA_isSome_iff.2 hm')
        have hmemv : (translateAttr (argAttrVal a).1, v) ∈ acc :=
          List.mem_reverse.1 (lookupA_mem hv)
        have hvne : v ≠ "" := hacc _ hmemv
        apply hfalse
        rw [getattrD, hv]
        simpa [truthyO] using hvne
      refine ih (fun b hb => hvals b (List.mem_cons_of_mem _ hb)) ?_ ?_ h
      · intro p hp
        rcases List.mem_append.1 hp with hp' | hp'
        · exact hacc p hp'
        · rw [List.mem_singleton] at hp'
          rw [hp']
          exact hvals a (List.mem_cons_self a rest)
      · rw [keysA_append]
        exact nodup_append_single hnd hnotmem

/-!
## Claim theorems
-/

/-- **C1**: for every `Get(timeout, data)` call that obtains a
connection `con` (the LIFO buffer is non-empty with `con` on top and
`con` is tracked as available), leaving the scoped-acquisition block by
either exit path (`bodyFails = false`: normal completion or early
exit; `bodyFails = true`: the caller's block raises) removes `con`
from the checked-out map, re-inserts it into the available map with
the fresh release-time timestamp `nowR`, and pushes it back onto the
free-connection buffer, so it is present in the available map
immediately after the scope exits. -/
theorem c1_released_on_every_exit_path {δ : Type} (s : PoolState δ) (data : δ)
    (nowA nowR : Nat) (bodyFails : Bool) (con : Nat) (rest : List Nat)
    (hq : s.connections = con :: rest) (hci : con ∈ keysCI s) :
    withGet s data nowA nowR bodyFails =
      some (some con,
        { checked_in := insertA (eraseA s.checked_in con) con nowR,
          checked_out := eraseA (insertA s.checked_out con (nowA, data)) con,
          connections := con :: rest },
        bodyFails) ∧
    lookupA (insertA (eraseA s.checked_in con) con nowR) con = some nowR ∧
    con ∉ keysA (eraseA (insertA s.checked_out con (nowA, data)) con) ∧
    con ∈ (con :: rest : List Nat) := by
  refine ⟨withGet_success s data nowA nowR bodyFails hq hci,
    lookupA_insertA_self _ con nowR, fun hm => ?_, List.mem_cons_self con rest⟩
  exact (mem_keysA_eraseA.1 hm).2 rfl

/-- Witness for C1 on a one-connection pool, taking the
exceptional exit path (`bodyFails = true`). -/
theorem c1_witness :
    (({ checked_in := [(1, 0)], checked_out := [], connections := [1] } :
        PoolState Nat).connections = 1 :: [] ∧
      1 ∈ keysCI ({ checked_in := [(1, 0)], checked_out := [], connections := [1] } :
        PoolState Nat)) ∧
    (withGet ({ checked_in := [(1, 0)], checked_out := [], connections := [1] } :
        PoolState Nat) 5 3 7 true =
      some (some 1,
        { checked_in := insertA (eraseA [(1, 0)] 1) 1 7,
          checked_out := eraseA (insertA ([] : List (Nat × (Nat × Nat))) 1 (3, 5)) 1,
          connections := 1 :: [] },
        true) ∧
      lookupA (insertA (eraseA [(1, 0)] 1) 1 7) 1 = some 7 ∧
      1 ∉ keysA (eraseA (insertA ([] : List (Nat × (Nat × Nat))) 1 (3, 5)) 1) ∧
      1 ∈ (1 :: [] : List Nat)) :=
  ⟨⟨rfl, by decide⟩, c1_released_on_every_exit_path _ 5 3 7 true 1 [] rfl (by decide)⟩

/-- **C2**: in every reachable state of a pool built from distinct
connections `cons`, each connection is in exactly one of the two
tracking maps, and the available count plus the checked-out count
equals the fixed pool size. -/
theorem c2_exactly_one_map_and_count {δ : Type} (cons : List Nat) (t0 : Nat)
    (s : PoolState δ) (hnd : cons.Nodup) (hr : PoolReachable cons t0 s) :
    (∀ c ∈ cons, (c ∈ keysCI s ∧ c ∉ keysCO s) ∨ (c ∉ keysCI s ∧ c ∈ keysCO s)) ∧
    (keysCI s).length + (keysCO s).length = cons.length := by
  have inv := poolInv_of_reachable hnd hr
  refine ⟨fun c hc => ?_, inv.count_eq⟩
  rcases (inv.mem_iff c).1 hc with hci | hco
  · exact Or.inl ⟨hci, fun hco => inv.not_both c ⟨hci, hco⟩⟩
  · exact Or.inr ⟨fun hci => inv.not_both c ⟨hci, hco⟩, hco⟩

/-- Witness for C2 at the state reached from `initPool [1, 2] 0` by
one acquisition step (connection 2 checked out with data 7 at time 3). -/
theorem c2_witness :
    ([1, 2] : List Nat).Nodup ∧
    ((∀ c ∈ ([1, 2] : List Nat),
        (c ∈ keysCI ({ checked_in := [(1, 0)], checked_out := [(2, (3, 7))], connections := [1] } : PoolState Nat) ∧
         c ∉ keysCO ({ checked_in := [(1, 0)], checked_out := [(2, (3, 7))], connections := [1] } : PoolState Nat)) ∨
        (c ∉ keysCI ({ checked_in := [(1, 0)], checked_out := [(2, (3, 7))], connections := [1] } : PoolState Nat) ∧
         c ∈ keysCO ({ checked_in := [(1, 0)], checked_out := [(2, (3, 7))], connections := [1] } : PoolState Nat))) ∧
      (keysCI ({ checked_in := [(1, 0)], checked_out := [(2, (3, 7))], connections := [1] } : PoolState Nat)).length +
        (keysCO ({ checked_in := [(1, 0)], checked_out := [(2, (3, 7))], connections := [1] } : PoolState Nat)).length = ([1, 2] : List Nat).length) :=
  ⟨by decide, c2_exactly_one_map_and_count [1, 2] 0 _ (by decide)
    (PoolReachable.step _ _ PoolReachable.init
      (PoolStep.acquire _ 2 [1] 7 3 _ rfl rfl))⟩

/-- **C3**: LIFO handout order for two distinct available connections
`A` and `B`.  The pool is concurrent, so "A is acquired and released,
then B is acquired and released" is modelled as one complete `Get`
scope that obtains and releases `A`, any interleaved acquire/release
halves by other scopes (`Relation.ReflTransGen PoolStep`), and then a
complete `Get` scope that obtains and releases `B`; the next
acquisition after the second scope pops `B` — the most recently
released connection — and not `A`. -/
theorem c3_lifo_most_recent_first {δ : Type} (s0 s1 s2 s3 : PoolState δ) (A B : Nat)
    (dA dB : δ) (aA rA aB rB : Nat) (bf1 bf2 : Bool)
    (_hA : A ∈ keysCI s0) (_hB : B ∈ keysCI s0) (hAB : A ≠ B)
    (_h1 : withGet s0 dA aA rA bf1 = some (some A, s1, bf1))
    (_hmid : Relation.ReflTransGen PoolStep s1 s2)
    (h2 : withGet s2 dB aB rB bf2 = some (some B, s3, bf2)) :
    (getCon s3).1 = some B ∧ (getCon s3).1 ≠ some A := by
  obtain ⟨s2', hap, hR⟩ := withGet_success_inv h2
  have hconn := Released_conn hR
  constructor
  · simp [getCon, hconn]
  · simp only [getCon, hconn]
    intro hc
    exact hAB (Option.some_inj.1 hc).symm

/-- Witness for C3 on a two-connection pool with distinct connections
`A = 2` and `B = 1`, both available at the start: the first scope
obtains and releases 2; a concurrent acquisition half then takes 2
back out (one `PoolStep`); the second scope obtains and releases 1;
the next acquisition pops 1, not 2. -/
theorem c3_witness :
    (2 ∈ keysCI ({ checked_in := [(1, 0), (2, 0)], checked_out := [], connections := [2, 1] } : PoolState Nat) ∧
     1 ∈ keysCI ({ checked_in := [(1, 0), (2, 0)], checked_out := [], connections := [2, 1] } : PoolState Nat) ∧
     (2 : Nat) ≠ 1 ∧
     withGet ({ checked_in := [(1, 0), (2, 0)], checked_out := [], connections := [2, 1] } : PoolState Nat) 0 0 0 false =
       some (some 2, { checked_in := [(1, 0), (2, 0)], checked_out := [], connections := [2, 1] }, false) ∧
     Relation.ReflTransGen PoolStep
       ({ checked_in := [(1, 0), (2, 0)], checked_out := [], connections := [2, 1] } : PoolState Nat)
       ({ checked_in := [(1, 0)], checked_out := [(2, (0, 0))], connections := [1] } : PoolState Nat) ∧
     withGet ({ checked_in := [(1, 0)], checked_out := [(2, (0, 0))], connections := [1] } : PoolState Nat) 0 0 0 false =
       some (some 1, { checked_in := [(1, 0)], checked_out := [(2, (0, 0))], connections := [1] }, false)) ∧
    ((getCon ({ checked_in := [(1, 0)], checked_out := [(2, (0, 0))], connections := [1] } : PoolState Nat)).1 = some 1 ∧
     (getCon ({ checked_in := [(1, 0)], checked_out := [(2, (0, 0))], connections := [1] } : PoolState Nat)).1 ≠ some 2) :=
  ⟨⟨by decide, by decide, by decide, by decide,
    Relation.ReflTransGen.single (PoolStep.acquire _ 2 [1] 0 0 _ rfl rfl),
    by decide⟩,
   c3_lifo_most_recent_first
     ({ checked_in := [(1, 0), (2, 0)], checked_out := [], connections := [2, 1] } : PoolState Nat)
     ({ checked_in := [(1, 0), (2, 0)], checked_out := [], connections := [2, 1] } : PoolState Nat)
     ({ checked_in := [(1, 0)], checked_out := [(2, (0, 0))], connections := [1] } : PoolState Nat)
     ({ checked_in := [(1, 0)], checked_out := [(2, (0, 0))], connections := [1] } : PoolState Nat)
     2 1 0 0 0 0 0 0 false false (by decide) (by decide) (by decide) (by decide)
     (Relation.ReflTransGen.single (PoolStep.acquire _ 2 [1] 0 0 _ rfl rfl))
     (by decide)⟩

/-- **C4**: a `Get` whose timeout expires with no connection available
returns normally (a `some` result, neither an exception nor an
endless block) and yields the sentinel `none`, which no successful
acquisition can be confused with. -/
theorem c4_timeout_yields_sentinel {δ : Type} (s : PoolState δ) (data : δ)
    (nowA nowR : Nat) (bodyFails : Bool) (hq : s.connections = []) :
    withGet s data nowA nowR bodyFails = some (none, s, bodyFails) ∧
    ∀ c : Nat, withGet s data nowA nowR bodyFails ≠ some (some c, s, bodyFails) := by
  refine ⟨withGet_empty s data nowA nowR bodyFails hq, fun c hc => ?_⟩
  rw [withGet_empty s data nowA nowR bodyFails hq] at hc
  simp at hc

/-- Witness for C4 on a one-connection pool whose only connection is
checked out. -/
theorem c4_witness :
    (({ checked_in := [], checked_out := [(1, (0, 4))], connections := [] } :
        PoolState Nat).connections = []) ∧
    (withGet ({ checked_in := [], checked_out := [(1, (0, 4))], connections := [] } :
        PoolState Nat) 9 2 6 false =
      some (none, { checked_in := [], checked_out := [(1, (0, 4))], connections := [] }, false) ∧
     ∀ c : Nat, withGet ({ checked_in := [], checked_out := [(1, (0, 4))], connections := [] } : PoolState Nat) 9 2 6 false ≠
        some (some c, { checked_in := [], checked_out := [(1, (0, 4))], connections := [] }, false)) :=
  ⟨rfl, c4_timeout_yields_sentinel _ 9 2 6 false rfl⟩

/-- **C5**: a successful acquisition within the timeout removes the
popped connection from the available map, inserts the checkout record
`(nowA, data)` into the checked-out map, and yields that same
connection; in the method's event trace, `Acquired` runs between a
lock acquire and a lock release. -/
theorem c5_acquire_effect_under_lock {δ : Type} (s : PoolState δ) (data : δ)
    (nowA : Nat) (con : Nat) (rest : List Nat)
    (hq : s.connections = con :: rest) (hci : con ∈ keysCI s) :
    acquirePhase s data nowA =
      some (some con,
        { checked_in := eraseA s.checked_in con,
          checked_out := insertA s.checked_out con (nowA, data),
          connections := rest }) ∧
    con ∉ keysA (eraseA s.checked_in con) ∧
    lookupA (insertA s.checked_out con (nowA, data)) con = some (nowA, data) ∧
    GetSuccessTrace =
      [Ev.qGet] ++ ([Ev.lockAcq] ++ AcquiredTrace ++ [Ev.lockRel]) ++ [Ev.yieldCon]
        ++ ([Ev.lockAcq] ++ ReleasedTrace ++ [Ev.lockRel]) := by
  refine ⟨acquirePhase_success s data nowA hq hci, fun hm => ?_,
    lookupA_insertA_self _ con _, rfl⟩
  exact (mem_keysA_eraseA.1 hm).2 rfl

/-- Witness for C5 on a two-connection pool with connection 5 on top
of the buffer. -/
theorem c5_witness :
    (({ checked_in := [(4, 0), (5, 0)], checked_out := [], connections := [5, 4] } :
        PoolState Nat).connections = 5 :: [4] ∧
      5 ∈ keysCI ({ checked_in := [(4, 0), (5, 0)], checked_out := [], connections := [5, 4] } : PoolState Nat)) ∧
    (acquirePhase ({ checked_in := [(4, 0), (5, 0)], checked_out := [], connections := [5, 4] } : PoolState Nat) 8 6 =
      some (some 5,
        { checked_in := eraseA [(4, 0), (5, 0)] 5,
          checked_out := insertA ([] : List (Nat × (Nat × Nat))) 5 (6, 8),
          connections := [4] }) ∧
      5 ∉ keysA (eraseA [(4, 0), (5, 0)] 5) ∧
      lookupA (insertA ([] : List (Nat × (Nat × Nat))) 5 (6, 8)) 5 = some (6, 8) ∧
      GetSuccessTrace =
        [Ev.qGet] ++ ([Ev.lockAcq] ++ AcquiredTrace ++ [Ev.lockRel]) ++ [Ev.yieldCon]
          ++ ([Ev.lockAcq] ++ ReleasedTrace ++ [Ev.lockRel])) :=
  ⟨⟨rfl, by decide⟩, c5_acquire_effect_under_lock _ 8 6 5 [4] rfl (by decide)⟩

/-- **C6** counterexample: `Stats` reads the clock and both tracking
maps with no lock acquisition anywhere in its body — the claim's
"while holding the pool's lock" is false of the code — whereas the
`Get` scope (shown for contrast) does acquire the lock around its
transitions. -/
theorem c6_counterexample :
    Ev.lockAcq ∉ StatsTrace ∧ Ev.lockRel ∉ StatsTrace ∧
    Ev.lockAcq ∈ GetSuccessTrace := by
  decide

/-- **C6** (amended): `Stats()` computes its snapshot without
acquiring the pool's lock, reading one clock instant and then both
tracking maps of one state argument, so both components of the
returned pair are durations of the same state's entries against that
single timestamp. -/
theorem c6_single_instant_snapshot {δ : Type} :
    (Ev.lockAcq ∉ StatsTrace ∧ StatsTrace = [Ev.readClock, Ev.readCI, Ev.readCO]) ∧
    ∀ (s : PoolState δ) (now : Nat),
      (∀ c dur, (c, dur) ∈ (Stats s now).1 ↔
        ∃ t, (c, t) ∈ s.checked_in ∧ dur = now - t) ∧
      (∀ c dur d, (c, (dur, d)) ∈ (Stats s now).2 ↔
        ∃ t, (c, (t, d)) ∈ s.checked_out ∧ dur = now - t) := by
  refine ⟨⟨by decide, rfl⟩, fun s now => ⟨fun c dur => ?_, fun c dur d => ?_⟩⟩
  · simp only [Stats, List.mem_map, Prod.mk.injEq]
    constructor
    · rintro ⟨⟨a, b⟩, hp, h1, h2⟩
      have ha : a = c := h1
      subst ha
      exact ⟨b, hp, h2.symm⟩
    · rintro ⟨t, ht, rfl⟩
      exact ⟨(c, t), ht, rfl, rfl⟩
  · simp only [Stats, List.mem_map, Prod.mk.injEq]
    constructor
    · rintro ⟨⟨a, b1, b2⟩, hp, h1, h2, h3⟩
      have ha : a = c := h1
      have hb : b2 = d := h3
      subst ha
      subst hb
      exact ⟨b1, hp, h2.symm⟩
    · rintro ⟨t, ht, rfl⟩
      exact ⟨(c, (t, d)), ht, rfl, rfl, rfl⟩

/-- **C7**: the two programmer-error preconditions, independently of
each other: calling `Acquired` on any connection not currently in the
available map (in particular one currently checked out — a double
acquire), and calling `Released` on any connection not currently in
the checked-out map (in particular one currently available — a double
release), each raise `KeyError` (modelled as `none`; the raising
`del` is the first statement of each transition, so both maps are
left unchanged). -/
theorem c7_transition_preconditions {δ : Type} (s s' : PoolState δ) (con con' : Nat)
    (data : δ) (now now' : Nat)
    (hci : con ∉ keysCI s) (hco : con' ∉ keysCO s') :
    Acquired s con data now = none ∧ Released s' con' now' = none := by
  constructor
  · simp [Acquired, lookupA_eq_none_iff.2 hci]
  · simp [Released, lookupA_eq_none_iff.2 hco]

/-- Witness for C7 exercising the claim's central contract-violation
cases: `Acquired` on connection 1 while it is currently checked out
(a double acquire), and `Released` on connection 1 while it is
currently available (a double release). -/
theorem c7_witness :
    (1 ∉ keysCI ({ checked_in := [], checked_out := [(1, (0, 2))], connections := [] } : PoolState Nat) ∧
     1 ∉ keysCO ({ checked_in := [(1, 0)], checked_out := [], connections := [1] } : PoolState Nat)) ∧
    (Acquired ({ checked_in := [], checked_out := [(1, (0, 2))], connections := [] } : PoolState Nat) 1 9 4 = none ∧
     Released ({ checked_in := [(1, 0)], checked_out := [], connections := [1] } : PoolState Nat) 1 6 = none) :=
  ⟨⟨by decide, by decide⟩,
    c7_transition_preconditions _ _ 1 1 9 4 6 (by decide) (by decide)⟩

/-- **C8**: an acquire-release round trip through a `Get` scope
returns the pool to a state whose available-map key set has exactly
the same members as before the acquisition (the timestamps may
differ). -/
theorem c8_acquire_release_roundtrip {δ : Type} (s : PoolState δ) (data : δ)
    (nowA nowR : Nat) (bodyFails : Bool) (con : Nat) (rest : List Nat)
    (hq : s.connections = con :: rest) (hci : con ∈ keysCI s) :
    withGet s data nowA nowR bodyFails =
      some (some con,
        { checked_in := insertA (eraseA s.checked_in con) con nowR,
          checked_out := eraseA (insertA s.checked_out con (nowA, data)) con,
          connections := con :: rest },
        bodyFails) ∧
    ∀ c : Nat, c ∈ keysA (insertA (eraseA s.checked_in con) con nowR) ↔ c ∈ keysCI s := by
  refine ⟨withGet_success s data nowA nowR bodyFails hq hci, fun c => ?_⟩
  have hne : con ∉ keysA (eraseA s.checked_in con) := fun hm =>
    (mem_keysA_eraseA.1 hm).2 rfl
  rw [insertA_of_not_mem nowR hne, keysA_append, List.mem_append]
  constructor
  · rintro (hm | hm)
    · exact (mem_keysA_eraseA.1 hm).1
    · have hcc : c = con := by simpa [keysA] using hm
      rw [hcc]
      exact hci
  · intro hm
    by_cases hcc : c = con
    · right
      simp [keysA, hcc]
    · left
      exact mem_keysA_eraseA.2 ⟨hm, hcc⟩

/-- Witness for C8 on a two-connection pool with connection 3 on top
of the buffer. -/
theorem c8_witness :
    (({ checked_in := [(2, 0), (3, 0)], checked_out := [], connections := [3, 2] } :
        PoolState Nat).connections = 3 :: [2] ∧
      3 ∈ keysCI ({ checked_in := [(2, 0), (3, 0)], checked_out := [], connections := [3, 2] } : PoolState Nat)) ∧
    (withGet ({ checked_in := [(2, 0), (3, 0)], checked_out := [], connections := [3, 2] } : PoolState Nat) 1 4 9 false =
      some (some 3,
        { checked_in := insertA (eraseA [(2, 0), (3, 0)] 3) 3 9,
          checked_out := eraseA (insertA ([] : List (Nat × (Nat × Nat))) 3 (4, 1)) 3,
          connections := 3 :: [2] },
        false) ∧
      ∀ c : Nat, c ∈ keysA (insertA (eraseA [(2, 0), (3, 0)] 3) 3 9) ↔
        c ∈ keysCI ({ checked_in := [(2, 0), (3, 0)], checked_out := [], connections := [3, 2] } : PoolState Nat)) :=
  ⟨⟨rfl, by decide⟩, c8_acquire_release_roundtrip _ 1 4 9 false 3 [2] rfl (by decide)⟩

/-- **C9** counterexample: `Enum(('a', ''), 'a')` has a later entry
whose (translated) attribute name coincides with an earlier entry's,
yet no `KeyError` is raised: the earlier bound value `''` is falsy, so
the constructor's `if getattr(self, safe_attr, None):` truthiness
check lets the duplicate through, silently rebinding `a` and leaving
the duplicated name in the attribute list. -/
theorem c9_counterexample :
    enumInit [EnumArg.pair "a" "", EnumArg.str "a"] =
      Except.ok [("a", ""), ("a", "a")] ∧
    ¬ (keysA [(("a" : String), ("" : String)), ("a", "a")]).Nodup := by
  constructor
  · rfl
  · decide

/-- **C9** (amended): when every entry's value is truthy (non-empty),
a construction in which a later entry's translated attribute name
coincides with an earlier one's raises `KeyError`, and a successfully
constructed `Enum` has pairwise-distinct attribute names, each bound
to its given value. -/
theorem c9_distinct_attrs_when_values_truthy (vals : List EnumArg)
    (htru : ∀ a ∈ vals, (argAttrVal a).2 ≠ "") :
    (¬ (vals.map (fun a => translateAttr (argAttrVal a).1)).Nodup →
      enumInit vals = Except.error ()) ∧
    ∀ l, enumInit vals = Except.ok l →
      (keysA l).Nodup ∧ ∀ p ∈ l, getattrD l p.1 = some p.2 := by
  have hok : ∀ l, enumInit vals = Except.ok l → (keysA l).Nodup := by
    intro l h
    exact enumInitAux_ok_nodup htru (by simp) (by simp [keysA]) h
  constructor
  · intro hdup
    cases he : enumInit vals with
    | error e => cases e; rfl
    | ok l =>
      exfalso
      apply hdup
      have hnd := hok l he
      have heq := @enumInitAux_ok_eq vals [] l he
      rw [heq, List.nil_append] at hnd
      rwa [keysA_map_pair (fun a => translateAttr (argAttrVal a).1)
        (fun a => (argAttrVal a).2) vals] at hnd
  · intro l h
    exact ⟨hok l h, fun p hp => getattrD_of_nodup (hok l h) hp⟩

/-- Witness for C9 (amended) at `Enum('a', 'a')`: all values truthy,
duplicated name, so construction raises `KeyError`. -/
theorem c9_witness :
    (∀ a ∈ [EnumArg.str "a", EnumArg.str "a"], (argAttrVal a).2 ≠ "") ∧
    ((¬ (([EnumArg.str "a", EnumArg.str "a"].map
          (fun a => translateAttr (argAttrVal a).1)).Nodup) →
        enumInit [EnumArg.str "a", EnumArg.str "a"] = Except.error ()) ∧
     ∀ l, enumInit [EnumArg.str "a", EnumArg.str "a"] = Except.ok l →
        (keysA l).Nodup ∧ ∀ p ∈ l, getattrD l p.1 = some p.2) :=
  ⟨by decide, c9_distinct_attrs_when_values_truthy _ (by decide)⟩

/-- **C10**: a timed-out `Get` returns the very same pool state it
started from — neither tracking map is modified and the buffer is
untouched — and the timeout path's event trace contains no map write
and no queue put (neither `Acquired` nor `Released` runs). -/
theorem c10_timeout_frame {δ : Type} (s : PoolState δ) (data : δ)
    (nowA nowR : Nat) (bodyFails : Bool) (hq : s.connections = []) :
    withGet s data nowA nowR bodyFails = some (none, s, bodyFails) ∧
    GetTimeoutTrace = [Ev.qGet, Ev.yieldCon] ∧
    Ev.writeCI ∉ GetTimeoutTrace ∧ Ev.writeCO ∉ GetTimeoutTrace ∧
    Ev.qPut ∉ GetTimeoutTrace :=
  ⟨withGet_empty s data nowA nowR bodyFails hq, rfl, by decide, by decide, by decide⟩

/-- Witness for C10 on an exhausted two-connection pool (both
connections checked out), exceptional body path. -/
theorem c10_witness :
    (({ checked_in := [], checked_out := [(2, (1, 3)), (7, (2, 3))], connections := [] } :
        PoolState Nat).connections = []) ∧
    (withGet ({ checked_in := [], checked_out := [(2, (1, 3)), (7, (2, 3))], connections := [] } : PoolState Nat) 0 5 8 true =
      some (none, { checked_in := [], checked_out := [(2, (1, 3)), (7, (2, 3))], connections := [] }, true) ∧
     GetTimeoutTrace = [Ev.qGet, Ev.yieldCon] ∧
     Ev.writeCI ∉ GetTimeoutTrace ∧ Ev.writeCO ∉ GetTimeoutTrace ∧
     Ev.qPut ∉ GetTimeoutTrace) :=
  ⟨rfl, c10_timeout_frame _ 0 5 8 true rfl⟩
